import Mathlib

/-!
Verification of the relative time expression parser (`parser.js`).

A JavaScript `Date` holds an integer count of milliseconds since the Unix
epoch; we model it as an unbounded `Int`.  The calendar field accessors and
setters (`getUTCFullYear`, `setUTCDate`, ...) are modelled after their
ECMA-262 definitions (`YearFromTime`, `MakeDay`, `MakeDate`, ...) over the
proleptic Gregorian calendar in UTC.  On `Int`, the `/` and `%` operators
are Euclidean (floor semantics for the positive divisors used here), which
coincides with the `Math.floor`-based divisions of ECMA-262.

The year/month extraction from a day number uses the standard era
decomposition of the Gregorian calendar (era = 400 years = 146097 days,
split into centuries and then quadrennia, with the year counted from
March so leap days fall at the end): any such implementation realizes the
declarative ECMA-262 `YearFromTime` / `MonthFromTime` / `DateFromTime`,
and the sanity theorems below pin the functions to known dates.
-/

/-- Era number of a day number (eras are 400-year blocks of 146097 days,
starting at 0000-03-01; day 0 is 1970-01-01). -/
def eraOf (z : Int) : Int := (z + 719468) / 146097

/-- Day of era, in `[0, 146097)`. -/
def doeOf (z : Int) : Int := (z + 719468) % 146097

/-- Century of era (0..3) of a day of era. -/
def centuryOfDoe (doe : Int) : Int := (4 * doe + 3) / 146097

/-- Day of century of a day of era. -/
def docOfDoe (doe : Int) : Int := doe - 36524 * centuryOfDoe doe

/-- Year of century (0..99) of a day of era. -/
def ycOfDoe (doe : Int) : Int := (4 * docOfDoe doe + 3) / 1461

/-- Year of era (0..399) of the day number `z`. -/
def yoeOf (z : Int) : Int := 100 * centuryOfDoe (doeOf z) + ycOfDoe (doeOf z)

/-- Day of year (0..365) of the day number `z`, in the March-based year. -/
def doyOf (z : Int) : Int :=
  docOfDoe (doeOf z) - (365 * ycOfDoe (doeOf z) + ycOfDoe (doeOf z) / 4)

/-- March-based month index (0 = March .. 11 = February) of the day number. -/
def mpOf (z : Int) : Int := (5 * doyOf z + 2) / 153

/-- Day of month (1..31) of a day number, as `DateFromTime` yields it. -/
def domOfDay (z : Int) : Int := doyOf z - (153 * mpOf z + 2) / 5 + 1

/-- January-based month index (0..11) of a day number (`MonthFromTime`). -/
def monthOfDay (z : Int) : Int :=
  if mpOf z < 10 then mpOf z + 2 else mpOf z - 10

/-- Calendar year of a day number (`YearFromTime`). -/
def yearOfDay (z : Int) : Int :=
  yoeOf z + 400 * eraOf z + (if monthOfDay z ≤ 1 then 1 else 0)

/-- March-shifted year used when rebuilding a day number from fields. -/
def mkYAdj (y m : Int) : Int := y - (if m ≤ 1 then 1 else 0)

/-- Year of era of the March-shifted year. -/
def mkYoe (y m : Int) : Int := mkYAdj y m - 400 * (mkYAdj y m / 400)

/-- March-based month index of a January-based month index in `[0, 11]`. -/
def mkMp (m : Int) : Int := if m ≤ 1 then m + 10 else m - 2

/-- Day number of the first day of month `m` (January-based, `0..11`) of
year `y`. -/
def firstDayOfMonth (y m : Int) : Int :=
  146097 * (mkYAdj y m / 400) + 365 * mkYoe y m + mkYoe y m / 4 - mkYoe y m / 100
  + (153 * mkMp m + 2) / 5 - 719468

/-- ECMA-262 MakeDay: day number of year/month/date where the month may be
any integer (it normalizes into the year) and so may the date (an
out-of-range day of month rolls over into adjacent months). -/
def makeDay (year month date : Int) : Int :=
  firstDayOfMonth (year + month / 12) (month % 12) + (date - 1)

/-- ECMA-262 Day: day number containing timestamp `t` (ms since epoch). -/
def dayOf (t : Int) : Int := t / 86400000

/-- ECMA-262 TimeWithinDay. -/
def timeWithinDay (t : Int) : Int := t % 86400000

/-- ECMA-262 msFromTime. -/
def msFromTime (t : Int) : Int := t % 1000

/-- ECMA-262 SecFromTime. -/
def secFromTime (t : Int) : Int := t / 1000 % 60

/-- ECMA-262 MinFromTime. -/
def minFromTime (t : Int) : Int := t / 60000 % 60

/-- ECMA-262 HourFromTime. -/
def hourFromTime (t : Int) : Int := t / 3600000 % 24

/-- ECMA-262 MakeTime (hours, minutes, seconds, milliseconds to ms). -/
def mkTime (h m s ms : Int) : Int := h * 3600000 + m * 60000 + s * 1000 + ms

/-- Date.prototype.getUTCFullYear. -/
def getUTCFullYear (t : Int) : Int := yearOfDay (dayOf t)

/-- Date.prototype.getUTCMonth (0..11). -/
def getUTCMonth (t : Int) : Int := monthOfDay (dayOf t)

/-- Date.prototype.getUTCDate (1..31). -/
def getUTCDate (t : Int) : Int := domOfDay (dayOf t)

/-- Date.prototype.setUTCMilliseconds. -/
def setUTCMilliseconds (t v : Int) : Int :=
  dayOf t * 86400000 + mkTime (hourFromTime t) (minFromTime t) (secFromTime t) v

/-- Date.prototype.setUTCSeconds with one argument (milliseconds kept). -/
def setUTCSeconds (t v : Int) : Int :=
  dayOf t * 86400000 + mkTime (hourFromTime t) (minFromTime t) v (msFromTime t)

/-- Date.prototype.setUTCSeconds with two arguments (sets ms as well). -/
def setUTCSecondsMs (t v ms : Int) : Int :=
  dayOf t * 86400000 + mkTime (hourFromTime t) (minFromTime t) v ms

/-- Date.prototype.setUTCMinutes with one argument. -/
def setUTCMinutes (t v : Int) : Int :=
  dayOf t * 86400000 + mkTime (hourFromTime t) v (secFromTime t) (msFromTime t)

/-- Date.prototype.setUTCMinutes with three arguments. -/
def setUTCMinutesSMs (t v s ms : Int) : Int :=
  dayOf t * 86400000 + mkTime (hourFromTime t) v s ms

/-- Date.prototype.setUTCHours with one argument. -/
def setUTCHours (t v : Int) : Int :=
  dayOf t * 86400000 + mkTime v (minFromTime t) (secFromTime t) (msFromTime t)

/-- Date.prototype.setUTCHours with four arguments. -/
def setUTCHoursMSMs (t v m s ms : Int) : Int :=
  dayOf t * 86400000 + mkTime v m s ms

/-- Date.prototype.setUTCDate. -/
def setUTCDate (t v : Int) : Int :=
  makeDay (yearOfDay (dayOf t)) (monthOfDay (dayOf t)) v * 86400000 + timeWithinDay t

/-- Date.prototype.setUTCMonth with one argument (day of month kept). -/
def setUTCMonth (t v : Int) : Int :=
  makeDay (yearOfDay (dayOf t)) v (domOfDay (dayOf t)) * 86400000 + timeWithinDay t

/-- Date.prototype.setUTCMonth with two arguments (sets the date as well). -/
def setUTCMonthDate (t v d : Int) : Int :=
  makeDay (yearOfDay (dayOf t)) v d * 86400000 + timeWithinDay t

/-- Date.prototype.setUTCFullYear with one argument. -/
def setUTCFullYear (t v : Int) : Int :=
  makeDay v (monthOfDay (dayOf t)) (domOfDay (dayOf t)) * 86400000 + timeWithinDay t

/-- Timestamp of a UTC broken-down time, for readable statements:
year, month (0-based), day of month, hour, minute, second, millisecond. -/
def mkUTC (y mo d h mi s ms : Int) : Int :=
  makeDay y mo d * 86400000 + mkTime h mi s ms

/-- Bounds of the era-level decomposition of a day number. -/
theorem era_decomp_bounds (z : Int) :
    0 ≤ doeOf z ∧ doeOf z < 146097 ∧
    0 ≤ centuryOfDoe (doeOf z) ∧ centuryOfDoe (doeOf z) ≤ 3 ∧
    0 ≤ docOfDoe (doeOf z) ∧ docOfDoe (doeOf z) ≤ 36524 ∧
    146097 * eraOf z + doeOf z = z + 719468 := by
  unfold docOfDoe centuryOfDoe doeOf eraOf
  omega

/-- Bounds of the year-of-century decomposition. -/
theorem yc_decomp_bounds (z : Int) :
    0 ≤ ycOfDoe (doeOf z) ∧ ycOfDoe (doeOf z) ≤ 99 ∧
    0 ≤ doyOf z ∧ doyOf z ≤ 365 := by
  unfold doyOf ycOfDoe docOfDoe centuryOfDoe doeOf
  omega

/-- Bounds of the month-level fields of a day number. -/
theorem civil_bounds (z : Int) :
    0 ≤ mpOf z ∧ mpOf z ≤ 11 ∧ 1 ≤ domOfDay z ∧ domOfDay z ≤ 31 ∧
    0 ≤ monthOfDay z ∧ monthOfDay z ≤ 11 ∧ 0 ≤ yoeOf z ∧ yoeOf z ≤ 399 ∧
    0 ≤ doyOf z ∧ doyOf z ≤ 365 := by
  have h1 := era_decomp_bounds z
  have h2 := yc_decomp_bounds z
  unfold monthOfDay domOfDay mpOf yoeOf
  split_ifs <;> omega

/-- The year-of-era start recomposition: year start plus day of year gives
back the day of era. -/
theorem yoe_recomp (z : Int) :
    365 * yoeOf z + yoeOf z / 4 - yoeOf z / 100 + doyOf z = doeOf z := by
  have h1 := era_decomp_bounds z
  have h2 := yc_decomp_bounds z
  have hdoc : docOfDoe (doeOf z) = doeOf z - 36524 * centuryOfDoe (doeOf z) := rfl
  unfold yoeOf doyOf
  omega

/-- Rebuilding a day number from its extracted calendar fields is the
identity: MakeDay inverts the field extraction. -/
theorem makeDay_of_fields (z : Int) :
    makeDay (yearOfDay z) (monthOfDay z) (domOfDay z) = z := by
  have hb := civil_bounds z
  have hA := yoe_recomp z
  have hz := era_decomp_bounds z
  have hM : (153 * mpOf z + 2) / 5 + (domOfDay z - 1) = doyOf z := by
    unfold domOfDay
    omega
  have h12 : monthOfDay z / 12 = 0 := by omega
  have h12b : monthOfDay z % 12 = monthOfDay z := by omega
  have hadj : mkYAdj (yearOfDay z) (monthOfDay z) = yoeOf z + 400 * eraOf z := by
    unfold mkYAdj yearOfDay
    split_ifs <;> omega
  have hmon : monthOfDay z = (if mpOf z < 10 then mpOf z + 2 else mpOf z - 10) := rfl
  have hmp : mkMp (monthOfDay z) = mpOf z := by
    unfold mkMp
    split_ifs at hmon ⊢ <;> omega
  have hyoe : (yoeOf z + 400 * eraOf z) / 400 = eraOf z := by omega
  have hsub : yoeOf z + 400 * eraOf z - 400 * eraOf z = yoeOf z := by ring
  unfold makeDay firstDayOfMonth mkYoe
  rw [h12, h12b, add_zero, hadj, hmp, hyoe, hsub]
  omega

/-- MakeDay is linear in its date argument. -/
theorem makeDay_date_add (y m d k : Int) :
    makeDay y m (d + k) = makeDay y m d + k := by
  unfold makeDay
  omega

/-- Changing the day-of-month field by a delta shifts the timestamp by
whole days, for every timestamp: UTC has no irregular day lengths. -/
theorem setUTCDate_shift (t k : Int) :
    setUTCDate t (getUTCDate t + k) = t + k * 86400000 := by
  have h1 := makeDay_of_fields (dayOf t)
  have h2 := makeDay_date_add (yearOfDay (dayOf t)) (monthOfDay (dayOf t)) (domOfDay (dayOf t)) k
  unfold setUTCDate getUTCDate
  unfold dayOf timeWithinDay at *
  omega

/-- Sanity: day number 0 is 1970-01-01. -/
theorem day_zero_fields :
    yearOfDay 0 = 1970 ∧ monthOfDay 0 = 0 ∧ domOfDay 0 = 1 := by decide

/-- Sanity: 2025-01-08 and the leap day 2024-02-29 have the expected
field decompositions, and February 2025 has 28 days. -/
theorem sample_dates :
    makeDay 2025 0 8 = 20096 ∧ yearOfDay 20096 = 2025 ∧
    monthOfDay 20096 = 0 ∧ domOfDay 20096 = 8 ∧
    yearOfDay (makeDay 2024 1 29) = 2024 ∧ monthOfDay (makeDay 2024 1 29) = 1 ∧
    domOfDay (makeDay 2024 1 29) = 29 ∧
    makeDay 2025 1 29 = makeDay 2025 2 1 := by decide

/-- Shifting the seconds field shifts the timestamp by whole seconds. -/
theorem setUTCSeconds_shift (t k : Int) :
    setUTCSeconds t (secFromTime t + k) = t + k * 1000 := by
  unfold setUTCSeconds mkTime dayOf hourFromTime minFromTime secFromTime msFromTime
  omega

/-- Shifting the minutes field shifts the timestamp by whole minutes. -/
theorem setUTCMinutes_shift (t k : Int) :
    setUTCMinutes t (minFromTime t + k) = t + k * 60000 := by
  unfold setUTCMinutes mkTime dayOf hourFromTime minFromTime secFromTime msFromTime
  omega

/-- Shifting the hours field shifts the timestamp by whole hours. -/
theorem setUTCHours_shift (t k : Int) :
    setUTCHours t (hourFromTime t + k) = t + k * 3600000 := by
  unfold setUTCHours mkTime dayOf hourFromTime minFromTime secFromTime msFromTime
  omega

/-- Errors thrown by `parse` in parser.js (the variant with rounding). -/
inductive ParseError where
  | missingMarker : ParseError
  | invalidAmount (amountStr : String) : ParseError
  | syntaxError (residue : String) (index : Int) : ParseError
  | invalidRoundingSuffix : ParseError
  | unsupportedUnit (unit : String) : ParseError
  | unsupportedRoundingUnit (unit : String) : ParseError
deriving DecidableEq

deriving instance DecidableEq for Except

/-- One offset token extracted by the token pattern: sign (true for plus),
magnitude digit string, unit code. -/
structure Tok where
  sign : Bool
  digits : List Char
  unit : String
deriving DecidableEq

/-- The unit alternation of the token pattern, tried in the source order
s, mon, m, h, d, y at the current position; mon is listed before m. -/
def matchUnit : List Char → Option (String × List Char) := fun cs =>
  match cs with
  | 's' :: r => some ("s", r)
  | 'm' :: 'o' :: 'n' :: r => some ("mon", r)
  | 'm' :: r => some ("m", r)
  | 'h' :: r => some ("h", r)
  | 'd' :: r => some ("d", r)
  | 'y' :: r => some ("y", r)
  | _ => none

/-- The sign alternation of the token pattern. -/
def matchSign (c : Char) : Option Bool :=
  if c = '+' then some true else if c = '-' then some false else none

/-- Try to match the token pattern (sign, digit run, unit) at the head of
the character list; on success return the token, the number of characters
matched, and the remainder. -/
def matchToken : List Char → Option (Tok × Nat × List Char) := fun cs =>
  match cs with
  | [] => none
  | c :: r =>
    match matchSign c with
    | none => none
    | some sg =>
      if (r.takeWhile Char.isDigit) = [] then none
      else
        match matchUnit (r.dropWhile Char.isDigit) with
        | some (u, rest) =>
          some (⟨sg, r.takeWhile Char.isDigit, u⟩,
                1 + (r.takeWhile Char.isDigit).length + u.length, rest)
        | none => none

/-- The repeated-exec scan of the tail: starting at the current position,
search forward for the next occurrence of the token pattern (a JavaScript
global-flag exec is not anchored, so it may skip characters); on a match,
consume it and continue after it.  Returns the matched tokens (each with
its matched length) and the final `lastIndex`, which stays at the end of
the previous match when no further match occurs.  The fuel argument is
called with the length of the list, which bounds the number of steps. -/
def scanAux : Nat → List Char → Nat → Nat → List (Tok × Nat) × Nat
  | 0, _, _, last => ([], last)
  | _ + 1, [], _, last => ([], last)
  | f + 1, c :: rest, pos, last =>
    match matchToken (c :: rest) with
    | some (tok, len, r) =>
      match scanAux f r (pos + len) (pos + len) with
      | (ts, l) => ((tok, len) :: ts, l)
    | none => scanAux f rest (pos + 1) last

/-- Scan a whole tail with the token pattern. -/
def scanTokens (cs : List Char) : List (Tok × Nat) × Nat :=
  scanAux cs.length cs 0 0

/-- Value of a decimal digit string. -/
def digitsVal (cs : List Char) : Nat :=
  cs.foldl (fun a c => 10 * a + (c.toNat - 48)) 0

/-- parseInt(s, 10) on the strings this parser feeds it: none (NaN) when
there is no leading decimal digit, otherwise the value of the longest
leading digit run. -/
def parseIntDec : List Char → Option Nat := fun cs =>
  match cs with
  | [] => none
  | c :: _ => if c.isDigit then some (digitsVal (cs.takeWhile Char.isDigit)) else none

/-- applyOffsetUtc from parser.js: dispatch on the unit code and add the
delta to the corresponding UTC calendar field of a copy of the date. -/
def applyOffsetUtc (date delta : Int) (unit : String) : Except ParseError Int :=
  match unit with
  | "s" => .ok (setUTCSeconds date (secFromTime date + delta))
  | "m" => .ok (setUTCMinutes date (minFromTime date + delta))
  | "h" => .ok (setUTCHours date (hourFromTime date + delta))
  | "d" => .ok (setUTCDate date (getUTCDate date + delta))
  | "mon" => .ok (setUTCMonth date (getUTCMonth date + delta))
  | "y" => .ok (setUTCFullYear date (getUTCFullYear date + delta))
  | _ => .error (.unsupportedUnit unit)

/-- roundUtc from parser.js: round a copy of the date to the nearest
boundary of the unit, half-up on the next finer field, then zero the
finer fields, mutating the copy step by step exactly as the source does. -/
def roundUtc (date : Int) (unit : String) : Except ParseError Int :=
  match unit with
  | "s" => .ok (setUTCMilliseconds
      (if 500 ≤ msFromTime date then setUTCSeconds date (secFromTime date + 1) else date) 0)
  | "m" => .ok (setUTCSecondsMs
      (if 30 ≤ secFromTime date then setUTCMinutes date (minFromTime date + 1) else date) 0 0)
  | "h" => .ok (setUTCMinutesSMs
      (if 30 ≤ minFromTime date then setUTCHours date (hourFromTime date + 1) else date) 0 0 0)
  | "d" => .ok (setUTCHoursMSMs
      (if 12 ≤ hourFromTime date then setUTCDate date (getUTCDate date + 1) else date) 0 0 0 0)
  | "mon" => .ok (setUTCHoursMSMs (setUTCDate
      (if 15 < getUTCDate date then setUTCMonth date (getUTCMonth date + 1) else date) 1) 0 0 0 0)
  | "y" => .ok (setUTCHoursMSMs (setUTCMonthDate
      (if 6 ≤ getUTCMonth date then setUTCFullYear date (getUTCFullYear date + 1) else date) 0 1) 0 0 0 0)
  | _ => .error (.unsupportedRoundingUnit unit)

/-- The while loop body over the matched tokens: for each token, parse the
magnitude (failing on NaN), negate it for a minus sign, and apply the
offset to the running result. -/
def applyToks : List Tok → Int → Except ParseError Int
  | [], r => .ok r
  | t :: ts, r =>
    match parseIntDec t.digits with
    | none => .error (.invalidAmount (String.mk t.digits))
    | some n =>
      match applyOffsetUtc r (if t.sign then (n : Int) else -(n : Int)) t.unit with
      | .error e => .error e
      | .ok r2 => applyToks ts r2

/-- String.prototype.trim on a character list. -/
def trimChars (cs : List Char) : List Char :=
  ((cs.dropWhile Char.isWhitespace).reverse.dropWhile Char.isWhitespace).reverse

/-- String.prototype.split with a single-character separator: the list of
fields between occurrences of the separator. -/
def splitFields (sep : Char) : List Char → List (List Char)
  | [] => [[]]
  | c :: rest =>
    if c = sep then [] :: splitFields sep rest
    else ((c :: (splitFields sep rest).headD []) :: (splitFields sep rest).tail)

/-- String.prototype.indexOf: position of the first occurrence of the
needle, or -1 when absent. -/
def indexOfChars (hay needle : List Char) : Int :=
  match hay with
  | [] => if needle = [] then 0 else -1
  | _ :: rest =>
    if needle.isPrefixOf hay then 0
    else if indexOfChars rest needle = -1 then -1 else indexOfChars rest needle + 1

/-- The mandatory leading marker. -/
def nowToken : List Char := ['n', 'o', 'w', '(', ')']

namespace P

/-- Steps 4 and 5 of parse from parser.js: when the tail is nonempty, scan
it with the token pattern applying each offset in order, then fail if the
final lastIndex is not the end of the tail, reporting the remainder and
its position (computed with indexOf on the trimmed expression). -/
def applyPhase (tail trimmed : List Char) (now : Int) : Except ParseError Int :=
  if 0 < tail.length then
    match scanTokens tail with
    | (toks, lastIndex) =>
      match applyToks (toks.map Prod.fst) now with
      | .error e => .error e
      | .ok r =>
        if lastIndex = tail.length then .ok r
        else .error (.syntaxError (String.mk (tail.drop lastIndex))
                       (indexOfChars trimmed tail + (lastIndex : Int)))
  else .ok now

/-- Step 6 of parse: the optional rounding suffix (the field between the
first and second caret, when a caret is present) is trimmed, must be
nonempty, and is passed to roundUtc. -/
def roundPhase (roundPart : Option (List Char)) (r : Int) : Except ParseError Int :=
  match roundPart with
  | none => .ok r
  | some rp =>
    if trimChars rp = [] then .error .invalidRoundingSuffix
    else roundUtc r (String.mk (trimChars rp))

/-- parse from parser.js (the variant with the rounding suffix), on the
character list of the expression string: trim, split off the rounding
part at the first caret (split with limit 2 keeps the first two fields
and discards the rest), require the now() marker prefix on the core part,
run the offset phase on the tail after the marker, then the rounding
phase on the optional rounding field. -/
def parseChars (expression : List Char) (now : Int) : Except ParseError Int :=
  if nowToken.isPrefixOf ((splitFields '^' (trimChars expression)).headD []) then
    match applyPhase (((splitFields '^' (trimChars expression)).headD []).drop 5)
        (trimChars expression) now with
    | .error e => .error e
    | .ok r => roundPhase ((splitFields '^' (trimChars expression)).get? 1) r
  else .error .missingMarker

/-- parse on a string expression. -/
def parse (expression : String) (now : Int) : Except ParseError Int :=
  parseChars expression.data now

end P

namespace DP

/-- Errors thrown by the dateParser variant of parse (no rounding). -/
inductive Error where
  | missingMarker : Error
  | invalidAmount (amountStr : String) : Error
  | syntaxError (residue : String) : Error
  | unsupportedUnit (unit : String) : Error
deriving DecidableEq

/-- The loop body of the dateParser variant, identical to the main one up
to the error type. -/
def applyToks : List Tok → Int → Except Error Int
  | [], r => .ok r
  | t :: ts, r =>
    match parseIntDec t.digits with
    | none => .error (.invalidAmount (String.mk t.digits))
    | some n =>
      match applyOffsetUtc r (if t.sign then (n : Int) else -(n : Int)) t.unit with
      | .error (.unsupportedUnit u) => .error (.unsupportedUnit u)
      | .error _ => .error (.unsupportedUnit t.unit)
      | .ok r2 => applyToks ts r2

/-- Total length of the matches, the consumedLength counter of the
dateParser variant. -/
def consumedLength (toks : List (Tok × Nat)) : Nat :=
  (toks.map Prod.snd).sum

/-- parse from dateParser/parser.js: same marker check and token scan,
no rounding support; the whole-tail check compares the sum of the match
lengths with the tail length, so any skipped character makes it fail. -/
def parseChars (expression : List Char) (now : Int) : Except Error Int :=
  let trimmed := trimChars expression
  if nowToken.isPrefixOf trimmed then
    let tail := trimmed.drop 5
    if tail.length = 0 then .ok now
    else
      match scanTokens tail with
      | (toks, _) =>
        match applyToks (toks.map Prod.fst) now with
        | .error e => .error e
        | .ok r =>
          if consumedLength toks = tail.length then .ok r
          else .error (.syntaxError (String.mk (tail.drop (consumedLength toks))))
  else .error .missingMarker

/-- parse on a string expression. -/
def parse (expression : String) (now : Int) : Except Error Int :=
  parseChars expression.data now

end DP

example : P.parse "now()" 17 = .ok 17 := by decide
example : P.parse "now()+1d" (mkUTC 2025 0 8 9 0 0 0) = .ok (mkUTC 2025 0 9 9 0 0 0) := by decide
example : P.parse "now()+1dXYZ" 0 = .error (.syntaxError "XYZ" 8) := by decide
example : P.parse "later()+1d" 0 = .error .missingMarker := by decide
example : P.parse "now()X+1d" (mkUTC 2025 0 8 9 0 0 0) = .ok (mkUTC 2025 0 9 9 0 0 0) := by decide
example : DP.parse "now()X+1d" 0 = .error (.syntaxError "d") := by decide
example : P.parse "now()+1d^mon^d" (mkUTC 2025 0 8 9 0 0 0) = .ok (mkUTC 2025 0 1 0 0 0 0) := by decide
example : P.parse "now()^" 0 = .error .invalidRoundingSuffix := by decide
example : P.parse "now()^x" 0 = .error (.unsupportedRoundingUnit "x") := by decide
example : P.parse "now()^mon" (mkUTC 2025 0 31 10 0 0 0) = .ok (mkUTC 2025 2 1 0 0 0 0) := by decide

/-- Claim C2: with base time 2025-01-08T09:00:00.000Z, the example
scenarios evaluate exactly as listed: now() is the base, +1d, +10d+12h,
-2d+12h, +1mon, +1y give the listed instants, now()+1dXYZ fails with a
syntax error naming the residue XYZ (at index 8), and later()+1d fails
with the missing-marker error. -/
theorem c2_example_scenarios :
    P.parse "now()" (mkUTC 2025 0 8 9 0 0 0) = .ok (mkUTC 2025 0 8 9 0 0 0) ∧
    P.parse "now()+1d" (mkUTC 2025 0 8 9 0 0 0) = .ok (mkUTC 2025 0 9 9 0 0 0) ∧
    P.parse "now()+10d+12h" (mkUTC 2025 0 8 9 0 0 0) = .ok (mkUTC 2025 0 18 21 0 0 0) ∧
    P.parse "now()-2d+12h" (mkUTC 2025 0 8 9 0 0 0) = .ok (mkUTC 2025 0 6 21 0 0 0) ∧
    P.parse "now()+1mon" (mkUTC 2025 0 8 9 0 0 0) = .ok (mkUTC 2025 1 8 9 0 0 0) ∧
    P.parse "now()+1y" (mkUTC 2025 0 8 9 0 0 0) = .ok (mkUTC 2026 0 8 9 0 0 0) ∧
    P.parse "now()+1dXYZ" (mkUTC 2025 0 8 9 0 0 0) = .error (.syntaxError "XYZ" 8) ∧
    P.parse "later()+1d" (mkUTC 2025 0 8 9 0 0 0) = .error .missingMarker := by
  decide

/-- Claim C1 (failing input): the scan of parser.js uses a non-anchored
global-flag exec, so junk before a token is skipped rather than consumed;
when the last match ends exactly at the end of the tail, the final
lastIndex equals the tail length and the residue check passes.  Thus
now()X+1d, which does not conform to the grammar, is accepted and returns
base + 1 day instead of throwing a syntax error, contradicting the
documented whole-tail validation; the dateParser variant, which compares
the summed match lengths instead, rejects the same input. -/
theorem c1_skipped_junk_accepted :
    P.parse "now()X+1d" (mkUTC 2025 0 8 9 0 0 0) = .ok (mkUTC 2025 0 9 9 0 0 0) ∧
    DP.parse "now()X+1d" (mkUTC 2025 0 8 9 0 0 0) = .error (.syntaxError "d") := by
  decide

/-- Claim C7: parsing the bare marker returns the base time unchanged, at
full millisecond resolution, for every base time. -/
theorem c7_noop_identity (base : Int) : P.parse "now()" base = .ok base := rfl

/-- Claim C10: month and year arithmetic normalizes forward rather than
clamping: adding one month to 2025-01-31T09:00Z lands on 2025-03-03T09:00Z
(January 31 plus one month is the nonexistent February 31, which rolls
three days into March), and adding one year to the leap day
2024-02-29T09:00Z lands on 2025-03-01T09:00Z. -/
theorem c10_forward_normalization :
    P.parse "now()+1mon" (mkUTC 2025 0 31 9 0 0 0) = .ok (mkUTC 2025 2 3 9 0 0 0) ∧
    P.parse "now()+1y" (mkUTC 2024 1 29 9 0 0 0) = .ok (mkUTC 2025 2 1 9 0 0 0) := by
  decide

/-- applyOffsetUtc only fails with the unsupported-unit error. -/
theorem applyOffsetUtc_no_invalidAmount (r δ : Int) (u a : String) :
    applyOffsetUtc r δ u ≠ .error (.invalidAmount a) := by
  unfold applyOffsetUtc
  split <;> simp

/-- roundUtc only fails with the unsupported-rounding-unit error. -/
theorem roundUtc_no_invalidAmount (r : Int) (u a : String) :
    roundUtc r u ≠ .error (.invalidAmount a) := by
  unfold roundUtc
  split <;> simp

/-- Every token produced by the token pattern carries a nonempty,
digit-only magnitude string. -/
theorem matchToken_digits {cs : List Char} {tok : Tok} {len : Nat} {r : List Char}
    (h : matchToken cs = some (tok, len, r)) :
    tok.digits ≠ [] ∧ ∀ c ∈ tok.digits, c.isDigit := by
  cases cs with
  | nil => simp [matchToken] at h
  | cons c rest =>
    simp only [matchToken] at h
    cases hs : matchSign c with
    | none => rw [hs] at h; simp at h
    | some sg =>
      rw [hs] at h
      dsimp only at h
      by_cases hd : rest.takeWhile Char.isDigit = []
      · rw [if_pos hd] at h; simp at h
      · rw [if_neg hd] at h
        cases hu : matchUnit (rest.dropWhile Char.isDigit) with
        | none => rw [hu] at h; simp at h
        | some p =>
          obtain ⟨u, rest2⟩ := p
          rw [hu] at h
          simp only [Option.some.injEq, Prod.mk.injEq] at h
          obtain ⟨htok, -⟩ := h
          subst htok
          exact ⟨hd, fun c hc => List.mem_takeWhile_imp hc⟩

/-- Every token produced by the repeated-exec scan carries a nonempty,
digit-only magnitude string. -/
theorem scanAux_digits :
    ∀ (f : Nat) (cs : List Char) (pos last : Nat) (tok : Tok) (len : Nat),
      (tok, len) ∈ (scanAux f cs pos last).1 →
      tok.digits ≠ [] ∧ ∀ c ∈ tok.digits, c.isDigit := by
  intro f
  induction f with
  | zero => intro cs pos last tok len hmem; simp [scanAux] at hmem
  | succ f ih =>
    intro cs pos last tok len hmem
    cases cs with
    | nil => simp [scanAux] at hmem
    | cons c rest =>
      simp only [scanAux] at hmem
      cases hm : matchToken (c :: rest) with
      | none => rw [hm] at hmem; exact ih rest _ _ _ _ hmem
      | some trip =>
        obtain ⟨tok1, len1, r⟩ := trip
        rw [hm] at hmem
        dsimp only at hmem
        simp only [List.mem_cons, Prod.mk.injEq] at hmem
        rcases hmem with ⟨h1, -⟩ | h2
        · subst h1; exact matchToken_digits hm
        · exact ih r (pos + len1) (pos + len1) tok len h2

/-- parseInt succeeds on a nonempty digit-only string. -/
theorem parseIntDec_digits {ds : List Char} (h1 : ds ≠ [])
    (h2 : ∀ c ∈ ds, c.isDigit) : ∃ n, parseIntDec ds = some n := by
  cases ds with
  | nil => exact absurd rfl h1
  | cons c cs =>
    have hc : c.isDigit := h2 c (by simp)
    refine ⟨digitsVal ((c :: cs).takeWhile Char.isDigit), ?_⟩
    simp [parseIntDec, hc]

/-- The token loop never fails with the invalid-amount error when all its
tokens carry nonempty digit-only magnitudes. -/
theorem applyToks_no_invalidAmount :
    ∀ (ts : List Tok), (∀ t ∈ ts, t.digits ≠ [] ∧ ∀ c ∈ t.digits, c.isDigit) →
      ∀ (r : Int) (a : String), applyToks ts r ≠ .error (.invalidAmount a) := by
  intro ts
  induction ts with
  | nil => intro h r a; simp [applyToks]
  | cons t ts ih =>
    intro h r a
    have ht := h t (by simp)
    obtain ⟨n, hn⟩ := parseIntDec_digits ht.1 ht.2
    simp only [applyToks, hn]
    cases hao : applyOffsetUtc r (if t.sign then (n : Int) else -(n : Int)) t.unit with
    | error e =>
      intro hcon
      simp only [Except.error.injEq] at hcon
      exact applyOffsetUtc_no_invalidAmount r _ t.unit a (by rw [hao, hcon])
    | ok r2 => exact ih (fun x hx => h x (by simp [hx])) r2 a

/-- The offset phase never fails with the invalid-amount error. -/
theorem applyPhase_no_invalidAmount (tail trimmed : List Char) (now : Int) (a : String) :
    P.applyPhase tail trimmed now ≠ .error (.invalidAmount a) := by
  unfold P.applyPhase
  by_cases hlen : 0 < tail.length
  · rw [if_pos hlen]
    cases hst : scanTokens tail with
    | mk toks lastIndex =>
      dsimp only
      cases hat : applyToks (toks.map Prod.fst) now with
      | error e =>
        intro hcon
        simp only [Except.error.injEq] at hcon
        refine applyToks_no_invalidAmount (toks.map Prod.fst) ?_ now a (by rw [hat, hcon])
        intro t hmem
        simp only [List.mem_map] at hmem
        obtain ⟨⟨tok, len⟩, hmem2, rfl⟩ := hmem
        have hmem3 : (tok, len) ∈ (scanAux tail.length tail 0 0).1 := by
          have heq : scanAux tail.length tail 0 0 = (toks, lastIndex) := hst
          rw [heq]; exact hmem2
        exact scanAux_digits tail.length tail 0 0 tok len hmem3
      | ok r => split_ifs <;> simp
  · rw [if_neg hlen]; simp

/-- The rounding phase never fails with the invalid-amount error. -/
theorem roundPhase_no_invalidAmount (rp : Option (List Char)) (r : Int) (a : String) :
    P.roundPhase rp r ≠ .error (.invalidAmount a) := by
  unfold P.roundPhase
  cases rp with
  | none => simp
  | some l =>
    dsimp only
    by_cases ht : trimChars l = []
    · rw [if_pos ht]; simp
    · rw [if_neg ht]; exact roundUtc_no_invalidAmount r _ a

/-- Claim C9: the defensive unparsable-magnitude branch is unreachable:
for every input string and base time, parse never fails with the
invalid-amount error, because every magnitude substring matched by the
digit-only token pattern parses to a valid integer. -/
theorem c9_invalid_amount_unreachable (s : String) (base : Int) (a : String) :
    P.parse s base ≠ .error (.invalidAmount a) := by
  unfold P.parse P.parseChars
  by_cases hpre :
      nowToken.isPrefixOf ((splitFields '^' (trimChars s.data)).headD [])
  · rw [if_pos hpre]
    cases hap : P.applyPhase (((splitFields '^' (trimChars s.data)).headD []).drop 5)
        (trimChars s.data) base with
    | error e =>
      intro hcon
      simp only [Except.error.injEq] at hcon
      exact applyPhase_no_invalidAmount _ _ base a (by rw [hap, hcon])
    | ok r => exact roundPhase_no_invalidAmount _ r a
  · rw [if_neg hpre]; simp

/-- A whitespace character is not a digit (values 9, 10, 13, 32 are
outside the digit range). -/
theorem isDigit_not_isWhitespace {c : Char} (h : c.isDigit = true) :
    c.isWhitespace = false := by
  by_contra hw
  simp only [Bool.not_eq_false, Char.isWhitespace] at hw
  simp only [Bool.or_eq_true, decide_eq_true_eq] at hw
  rcases hw with ((rfl | rfl) | rfl) | rfl <;> simp [Char.isDigit] at h

/-- dropWhile is the identity on a list whose members all fail the
predicate. -/
theorem dropWhile_of_none {p : Char → Bool} {l : List Char}
    (h : ∀ c ∈ l, p c = false) : l.dropWhile p = l := by
  cases l with
  | nil => rfl
  | cons c r => simp [List.dropWhile, h c (by simp)]

/-- trim is the identity on a string with no whitespace characters. -/
theorem trimChars_of_none {l : List Char}
    (h : ∀ c ∈ l, c.isWhitespace = false) : trimChars l = l := by
  unfold trimChars
  rw [dropWhile_of_none h]
  rw [dropWhile_of_none (fun c hc => h c (List.mem_reverse.mp hc))]
  exact List.reverse_reverse l

/-- Splitting a list that does not contain the separator yields the one
whole field. -/
theorem splitFields_of_none {sep : Char} {l : List Char}
    (h : sep ∉ l) : splitFields sep l = [l] := by
  induction l with
  | nil => rfl
  | cons c r ih =>
    have hc : ¬(c = sep) := fun hcs => h (by simp [hcs])
    have hr : sep ∉ r := fun hrs => h (by simp [hrs])
    simp [splitFields, hc, ih hr]

/-- The digit run of a digit list followed by a non-digit-headed remainder
is exactly the digit list, and the remainder survives. -/
theorem span_digits {ds : List Char} (hdig : ∀ c ∈ ds, c.isDigit)
    {rest : List Char} (hr : ∀ c, rest.head? = some c → c.isDigit = false) :
    (ds ++ rest).takeWhile Char.isDigit = ds ∧
    (ds ++ rest).dropWhile Char.isDigit = rest := by
  induction ds with
  | nil =>
    simp only [List.nil_append]
    cases rest with
    | nil => simp [List.takeWhile, List.dropWhile]
    | cons c r =>
      have := hr c rfl
      simp [List.takeWhile, List.dropWhile, this]
  | cons d ds ih =>
    have hd : d.isDigit = true := hdig d (by simp)
    have ihs := ih (fun c hc => hdig c (by simp [hc]))
    simp [List.takeWhile, List.dropWhile, hd, ihs.1, ihs.2]

/-- The token pattern consumes exactly sign, digit run and unit. -/
theorem matchToken_build {c0 : Char} {sg : Bool} (hc0 : matchSign c0 = some sg)
    {ds : List Char} (hds : ds ≠ []) (hdig : ∀ c ∈ ds, c.isDigit)
    {urest rest : List Char} {u : String}
    (hhead : ∀ c, urest.head? = some c → c.isDigit = false)
    (hmu : matchUnit urest = some (u, rest)) :
    matchToken (c0 :: (ds ++ urest)) =
      some (⟨sg, ds, u⟩, 1 + ds.length + u.length, rest) := by
  have hspan := span_digits hdig hhead
  simp only [matchToken, hc0]
  rw [hspan.1, hspan.2, if_neg hds, hmu]

/-- The scan of the empty list yields no tokens. -/
theorem scanAux_nil (f pos last : Nat) : scanAux f [] pos last = ([], last) := by
  cases f <;> rfl

/-- Unfolding the scan when the pattern matches at the cursor. -/
theorem scanAux_cons_match {c : Char} {rest r : List Char} {tok : Tok}
    {len : Nat} (f pos last : Nat)
    (h : matchToken (c :: rest) = some (tok, len, r)) :
    scanAux (f + 1) (c :: rest) pos last =
      ((tok, len) :: (scanAux f r (pos + len) (pos + len)).1,
       (scanAux f r (pos + len) (pos + len)).2) := by
  simp [scanAux, h]

/-- Each arm of the unit alternation consumes as many characters as the
unit code it returns. -/
theorem matchUnit_length {xs r : List Char} {u : String}
    (h : matchUnit xs = some (u, r)) : xs.length = u.length + r.length := by
  have e1 : ("s" : String).length = 1 := rfl
  have e2 : ("mon" : String).length = 3 := rfl
  have e3 : ("m" : String).length = 1 := rfl
  have e4 : ("h" : String).length = 1 := rfl
  have e5 : ("d" : String).length = 1 := rfl
  have e6 : ("y" : String).length = 1 := rfl
  unfold matchUnit at h
  split at h
  all_goals cases h
  all_goals try simp only [List.length_cons]
  all_goals omega

/-- The token pattern consumes at least one character and exactly as many
as it reports. -/
theorem matchToken_length {cs : List Char} {tok : Tok} {len : Nat}
    {r : List Char} (h : matchToken cs = some (tok, len, r)) :
    len + r.length = cs.length ∧ 1 ≤ len := by
  cases cs with
  | nil => simp [matchToken] at h
  | cons c rest =>
    simp only [matchToken] at h
    cases hs : matchSign c with
    | none => rw [hs] at h; simp at h
    | some sg =>
      rw [hs] at h
      dsimp only at h
      by_cases hd : rest.takeWhile Char.isDigit = []
      · rw [if_pos hd] at h; simp at h
      · rw [if_neg hd] at h
        cases hu : matchUnit (rest.dropWhile Char.isDigit) with
        | none => rw [hu] at h; simp at h
        | some p =>
          obtain ⟨u, rest2⟩ := p
          rw [hu] at h
          simp only [Option.some.injEq, Prod.mk.injEq] at h
          obtain ⟨-, hlen, hr⟩ := h
          subst hlen
          subst hr
          have h1 : rest.takeWhile Char.isDigit ++ rest.dropWhile Char.isDigit = rest :=
            List.takeWhile_append_dropWhile Char.isDigit rest
          have h2 := matchUnit_length hu
          have h3 : (rest.takeWhile Char.isDigit).length
              + (rest.dropWhile Char.isDigit).length = rest.length := by
            rw [← List.length_append, h1]
          constructor
          · simp only [List.length_cons]
            omega
          · omega

/-- The scan does not depend on the fuel once the fuel covers the list
length. -/
theorem scanAux_fuel :
    ∀ (f g : Nat) (cs : List Char) (pos last : Nat),
      cs.length ≤ f → cs.length ≤ g →
      scanAux f cs pos last = scanAux g cs pos last := by
  intro f
  induction f with
  | zero =>
    intro g cs pos last hf hg
    have : cs = [] := List.length_eq_zero.mp (Nat.le_zero.mp hf)
    subst this
    rw [scanAux_nil, scanAux_nil]
  | succ f ih =>
    intro g cs pos last hf hg
    cases cs with
    | nil => rw [scanAux_nil, scanAux_nil]
    | cons c rest =>
      cases g with
      | zero => simp at hg
      | succ g =>
        cases hm : matchToken (c :: rest) with
        | none =>
          simp only [scanAux, hm]
          exact ih g rest _ _ (by simp only [List.length_cons] at hf; omega)
            (by simp only [List.length_cons] at hg; omega)
        | some trip =>
          obtain ⟨tok, len, r⟩ := trip
          have hlen := matchToken_length hm
          have hlen2 : len + r.length = rest.length + 1 := by
            have h1 := hlen.1
            simpa using h1
          have hlen3 := hlen.2
          rw [scanAux_cons_match f pos last hm, scanAux_cons_match g pos last hm]
          have hrec : scanAux f r (pos + len) (pos + len)
              = scanAux g r (pos + len) (pos + len) := by
            apply ih
            · simp only [List.length_cons] at hf; omega
            · simp only [List.length_cons] at hg; omega
          rw [hrec]

/-- parseInt evaluates a digit-only nonempty string to its decimal value. -/
theorem parseIntDec_all {ds : List Char} (h1 : ds ≠ [])
    (h2 : ∀ c ∈ ds, c.isDigit) : parseIntDec ds = some (digitsVal ds) := by
  have htw : ds.takeWhile Char.isDigit = ds := by
    have := (@span_digits ds h2 [] (by intro c hc; simp at hc)).1
    simpa using this
  cases ds with
  | nil => exact absurd rfl h1
  | cons c cs =>
    have hc : c.isDigit = true := h2 c (by simp)
    simp only [parseIntDec, hc, if_pos]
    rw [htw]

/-- Adding to the seconds field is adding seconds. -/
theorem applyOffset_s (t δ : Int) : applyOffsetUtc t δ "s" = .ok (t + δ * 1000) := by
  have h : applyOffsetUtc t δ "s" = .ok (setUTCSeconds t (secFromTime t + δ)) := rfl
  rw [h, setUTCSeconds_shift]

/-- Adding to the minutes field is adding minutes. -/
theorem applyOffset_m (t δ : Int) : applyOffsetUtc t δ "m" = .ok (t + δ * 60000) := by
  have h : applyOffsetUtc t δ "m" = .ok (setUTCMinutes t (minFromTime t + δ)) := rfl
  rw [h, setUTCMinutes_shift]

/-- Adding to the hours field is adding hours. -/
theorem applyOffset_h (t δ : Int) : applyOffsetUtc t δ "h" = .ok (t + δ * 3600000) := by
  have h : applyOffsetUtc t δ "h" = .ok (setUTCHours t (hourFromTime t + δ)) := rfl
  rw [h, setUTCHours_shift]

/-- Adding to the day-of-month field is adding whole days (UTC has no
daylight saving discontinuities). -/
theorem applyOffset_d (t δ : Int) : applyOffsetUtc t δ "d" = .ok (t + δ * 86400000) := by
  have h : applyOffsetUtc t δ "d" = .ok (setUTCDate t (getUTCDate t + δ)) := rfl
  rw [h, setUTCDate_shift]

/-- The marker is a prefix of any marker-headed expression. -/
theorem nowToken_isPrefixOf (cs : List Char) :
    nowToken.isPrefixOf (nowToken ++ cs) = true := by
  simp [nowToken, List.isPrefixOf]

/-- A scan of a tail that is exactly one token. -/
theorem scanTokens_one {cs : List Char} {t1 : Tok} {l1 : Nat}
    (h1 : matchToken cs = some (t1, l1, [])) :
    scanTokens cs = ([(t1, l1)], cs.length) := by
  have hlen := matchToken_length h1
  simp only [List.length_nil] at hlen
  cases cs with
  | nil => simp [matchToken] at h1
  | cons c rest =>
    unfold scanTokens
    simp only [List.length_cons]
    rw [scanAux_cons_match rest.length 0 0 h1]
    rw [scanAux_nil]
    simp only [List.length_cons] at hlen
    have : l1 = rest.length + 1 := by omega
    subst this
    simp

/-- A scan of a tail that is exactly two adjacent tokens. -/
theorem scanTokens_two {cs1 cs2 : List Char} {t1 t2 : Tok} {l1 l2 : Nat}
    (h1 : matchToken (cs1 ++ cs2) = some (t1, l1, cs2))
    (h2 : matchToken cs2 = some (t2, l2, [])) :
    scanTokens (cs1 ++ cs2) = ([(t1, l1), (t2, l2)], (cs1 ++ cs2).length) := by
  have hlen1 := matchToken_length h1
  have hlen2 := matchToken_length h2
  simp only [List.length_nil] at hlen2
  cases hcs : cs1 ++ cs2 with
  | nil => rw [hcs] at h1; simp [matchToken] at h1
  | cons c rest =>
    rw [hcs] at h1
    rw [hcs] at hlen1
    simp only [List.length_cons] at hlen1
    unfold scanTokens
    simp only [List.length_cons]
    rw [scanAux_cons_match rest.length 0 0 h1]
    simp only [Nat.zero_add]
    have hfuel : cs2.length ≤ rest.length := by omega
    rw [scanAux_fuel rest.length cs2.length cs2 l1 l1 hfuel (Nat.le_refl _)]
    cases hcs2 : cs2 with
    | nil => rw [hcs2] at h2; simp [matchToken] at h2
    | cons c2 rest2 =>
      rw [hcs2] at h2
      simp only [List.length_cons]
      rw [scanAux_cons_match rest2.length l1 l1 h2]
      rw [scanAux_nil]
      rw [hcs2] at hlen2
      simp only [List.length_cons] at hlen2
      have hc2len : cs2.length = rest2.length + 1 := by rw [hcs2]; simp
      have he1 : l1 + l2 = rest.length + 1 := by omega
      simp only [he1]

/-- A marker-headed, caret-free, whitespace-free expression parses through
the offset phase alone: the trim keeps it intact, the split yields the
single whole field, the marker check passes, and no rounding is applied. -/
theorem parseChars_plain (cs : List Char) (now : Int)
    (hws : ∀ c ∈ cs, c.isWhitespace = false) (hcaret : '^' ∉ cs) :
    P.parseChars (nowToken ++ cs) now = P.applyPhase cs (nowToken ++ cs) now := by
  have hws2 : ∀ c ∈ nowToken ++ cs, c.isWhitespace = false := by
    intro c hc
    rcases List.mem_append.mp hc with hn | hcs
    · fin_cases hn <;> rfl
    · exact hws c hcs
  have hcar2 : '^' ∉ nowToken ++ cs := by
    intro hmem
    rcases List.mem_append.mp hmem with hn | hcs
    · simp [nowToken] at hn
    · exact hcaret hcs
  unfold P.parseChars
  rw [trimChars_of_none hws2, splitFields_of_none hcar2]
  simp only [List.headD_cons]
  have hg : ([nowToken ++ cs] : List (List Char)).get? 1 = none := rfl
  rw [hg]
  rw [if_pos (nowToken_isPrefixOf cs)]
  rw [show (5 : Nat) = nowToken.length from rfl, List.drop_left]
  cases happ : P.applyPhase cs (nowToken ++ cs) now with
  | error e => rfl
  | ok r => rfl

/-- A matched sign character is a plus or a minus. -/
theorem matchSign_cases {c : Char} {b : Bool} (h : matchSign c = some b) :
    c = '+' ∨ c = '-' := by
  unfold matchSign at h
  split_ifs at h with h1 h2
  · exact Or.inl h1
  · exact Or.inr h2

/-- A digit is not the caret. -/
theorem isDigit_ne_caret {c : Char} (h : c.isDigit = true) : ¬(c = '^') := by
  intro hc
  subst hc
  simp [Char.isDigit] at h

/-- Claim C5 helper: the character content of an offset token with a sign,
digit run and trailing unit-word contains no whitespace and no caret when
the unit word does not. -/
theorem tokenChars_plain {sg : Char} {b : Bool} (hsg : matchSign sg = some b)
    {ds : List Char} (hdig : ∀ c ∈ ds, c.isDigit)
    {us : List Char} (hus : ∀ c ∈ us, c.isWhitespace = false ∧ ¬(c = '^')) :
    (∀ c ∈ sg :: (ds ++ us), c.isWhitespace = false) ∧ '^' ∉ sg :: (ds ++ us) := by
  constructor
  · intro c hc
    rcases List.mem_cons.mp hc with rfl | hc2
    · rcases matchSign_cases hsg with rfl | rfl <;> rfl
    · rcases List.mem_append.mp hc2 with hd | hu
      · exact isDigit_not_isWhitespace (hdig c hd)
      · exact (hus c hu).1
  · intro hc
    rcases List.mem_cons.mp hc with heq | hc2
    · rcases matchSign_cases hsg with h1 | h1 <;> simp [← heq] at h1
    · rcases List.mem_append.mp hc2 with hd | hu
      · exact isDigit_ne_caret (hdig _ hd) rfl
      · exact (hus _ hu).2 rfl

/-- Claim C5: unit disambiguation is longest-match-first: at every scan
position the unit alternation returns mon, not m, on input starting with
the three letters m o n; consequently for every base time, sign and
magnitude digit string, an offset token written with unit mon parses as a
single month offset on the whole expression (never as a minute offset
followed by residue), and the parse applies setUTCMonth. -/
theorem c5_longest_match_mon (base : Int) (sg : Char) (sgb : Bool) (ds : List Char)
    (hsg : matchSign sg = some sgb)
    (hds : ds ≠ []) (hdig : ∀ c ∈ ds, c.isDigit) :
    (∀ rest : List Char, matchUnit ('m' :: 'o' :: 'n' :: rest) = some ("mon", rest)) ∧
    P.parse (String.mk (nowToken ++ sg :: (ds ++ ['m', 'o', 'n']))) base =
      .ok (setUTCMonth base (getUTCMonth base
        + (if sgb then (digitsVal ds : Int) else -(digitsVal ds : Int)))) := by
  refine ⟨fun rest => rfl, ?_⟩
  have hplain := @tokenChars_plain sg sgb hsg ds hdig
    ['m', 'o', 'n'] (by intro c hc; fin_cases hc <;> exact ⟨rfl, by decide⟩)
  have hstr : (String.mk (nowToken ++ sg :: (ds ++ ['m', 'o', 'n']))).data
      = nowToken ++ sg :: (ds ++ ['m', 'o', 'n']) := rfl
  unfold P.parse
  rw [hstr]
  rw [parseChars_plain _ base hplain.1 hplain.2]
  have hmt : matchToken (sg :: (ds ++ ['m', 'o', 'n']))
      = some (⟨sgb, ds, "mon"⟩, 1 + ds.length + ("mon" : String).length, []) :=
    matchToken_build hsg hds hdig
      (by intro c hc; cases hc; decide) rfl
  unfold P.applyPhase
  rw [if_pos (by simp)]
  rw [scanTokens_one hmt]
  dsimp only [List.map]
  rw [show applyToks [⟨sgb, ds, "mon"⟩] base =
      (match parseIntDec ds with
       | none => .error (.invalidAmount (String.mk ds))
       | some n =>
         match applyOffsetUtc base (if sgb then (n : Int) else -(n : Int)) "mon" with
         | .error e => .error e
         | .ok r2 => applyToks [] r2) from rfl]
  rw [parseIntDec_all hds hdig]
  dsimp only
  rw [show applyOffsetUtc base
      (if sgb then (digitsVal ds : Int) else -(digitsVal ds : Int)) "mon"
      = .ok (setUTCMonth base (getUTCMonth base
          + (if sgb then (digitsVal ds : Int) else -(digitsVal ds : Int)))) from rfl]
  dsimp only [applyToks]
  rw [if_pos rfl]

/-- Witness for claim C5 at the concrete input now()+1mon. -/
theorem c5_witness :
    P.parse (String.mk (nowToken ++ '+' :: (['1'] ++ ['m', 'o', 'n']))) 0 =
      .ok (setUTCMonth 0 (getUTCMonth 0 + (1 : Int))) := by
  have h := (c5_longest_match_mon 0 '+' true ['1'] rfl (by decide) (by decide)).2
  simpa using h

/-- Evaluation of parse on a marker followed by exactly two offset tokens
with benign characters: both tokens are scanned and applied in order and
the residue check passes. -/
theorem parse_two_tokens (base : Int) {sg1 sg2 : Char} {b1 b2 : Bool}
    (h1 : matchSign sg1 = some b1) (h2 : matchSign sg2 = some b2)
    {ds1 ds2 : List Char} (hds1 : ds1 ≠ []) (hdig1 : ∀ c ∈ ds1, c.isDigit)
    (hds2 : ds2 ≠ []) (hdig2 : ∀ c ∈ ds2, c.isDigit)
    {us1 us2 : List Char} {u1 u2 : String}
    (husp1 : ∀ c ∈ us1, c.isWhitespace = false ∧ ¬(c = '^'))
    (husp2 : ∀ c ∈ us2, c.isWhitespace = false ∧ ¬(c = '^'))
    (hmu1 : matchUnit (us1 ++ (sg2 :: (ds2 ++ us2))) = some (u1, sg2 :: (ds2 ++ us2)))
    (hmu2 : matchUnit us2 = some (u2, []))
    (hh1 : ∀ c, (us1 ++ (sg2 :: (ds2 ++ us2))).head? = some c → c.isDigit = false)
    (hh2 : ∀ c, us2.head? = some c → c.isDigit = false) :
    P.parseChars (nowToken ++ (sg1 :: (ds1 ++ (us1 ++ (sg2 :: (ds2 ++ us2)))))) base
      = (match applyOffsetUtc base
            (if b1 then (digitsVal ds1 : Int) else -(digitsVal ds1 : Int)) u1 with
         | .error e => .error e
         | .ok r =>
           match applyOffsetUtc r
              (if b2 then (digitsVal ds2 : Int) else -(digitsVal ds2 : Int)) u2 with
           | .error e => .error e
           | .ok r2 => .ok r2) := by
  have hX : ∀ c ∈ us1 ++ (sg2 :: (ds2 ++ us2)), c.isWhitespace = false ∧ ¬(c = '^') := by
    intro c hc
    rcases List.mem_append.mp hc with hu | hrest
    · exact husp1 c hu
    · rcases List.mem_cons.mp hrest with rfl | hc2
      · rcases matchSign_cases h2 with rfl | rfl <;> exact ⟨rfl, by decide⟩
      · rcases List.mem_append.mp hc2 with hd | hu2
        · exact ⟨isDigit_not_isWhitespace (hdig2 c hd), isDigit_ne_caret (hdig2 c hd)⟩
        · exact husp2 c hu2
  have hplain := tokenChars_plain h1 hdig1 hX
  rw [parseChars_plain _ base hplain.1 hplain.2]
  have hmt1 : matchToken (sg1 :: (ds1 ++ (us1 ++ (sg2 :: (ds2 ++ us2)))))
      = some (⟨b1, ds1, u1⟩, 1 + ds1.length + u1.length, sg2 :: (ds2 ++ us2)) :=
    matchToken_build h1 hds1 hdig1 hh1 hmu1
  have hmt2 : matchToken (sg2 :: (ds2 ++ us2))
      = some (⟨b2, ds2, u2⟩, 1 + ds2.length + u2.length, []) :=
    matchToken_build h2 hds2 hdig2 hh2 hmu2
  have hshape : sg1 :: (ds1 ++ (us1 ++ (sg2 :: (ds2 ++ us2))))
      = (sg1 :: (ds1 ++ us1)) ++ (sg2 :: (ds2 ++ us2)) := by
    simp [List.append_assoc]
  unfold P.applyPhase
  rw [if_pos (by simp)]
  rw [hshape]
  rw [scanTokens_two (by rw [← hshape]; exact hmt1) hmt2]
  dsimp only [List.map_cons, List.map_nil, Prod.fst]
  rw [show applyToks [⟨b1, ds1, u1⟩, ⟨b2, ds2, u2⟩] base =
      (match parseIntDec ds1 with
       | none => .error (.invalidAmount (String.mk ds1))
       | some n =>
         match applyOffsetUtc base (if b1 then (n : Int) else -(n : Int)) u1 with
         | .error e => .error e
         | .ok r => applyToks [⟨b2, ds2, u2⟩] r) from rfl]
  rw [parseIntDec_all hds1 hdig1]
  dsimp only
  cases ha1 : applyOffsetUtc base
      (if b1 then (digitsVal ds1 : Int) else -(digitsVal ds1 : Int)) u1 with
  | error e => rfl
  | ok r =>
    dsimp only
    rw [show applyToks [⟨b2, ds2, u2⟩] r =
        (match parseIntDec ds2 with
         | none => .error (.invalidAmount (String.mk ds2))
         | some n =>
           match applyOffsetUtc r (if b2 then (n : Int) else -(n : Int)) u2 with
           | .error e => .error e
           | .ok r2 => applyToks [] r2) from rfl]
    rw [parseIntDec_all hds2 hdig2]
    dsimp only
    cases ha2 : applyOffsetUtc r
        (if b2 then (digitsVal ds2 : Int) else -(digitsVal ds2 : Int)) u2 with
    | error e => rfl
    | ok r2 =>
      dsimp only [applyToks]
      rw [if_pos rfl]

/-- Claim C6: round-trip additivity for the non-cascading units: for every
base time and every magnitude digit string, applying plus N and then minus
N of the same unit s, m, h or d returns exactly the base instant, because
these units have fixed millisecond lengths in UTC (no daylight saving). -/
theorem c6_roundtrip_additivity (base : Int) (ds : List Char) (u : String)
    (hds : ds ≠ []) (hdig : ∀ c ∈ ds, c.isDigit)
    (hu : u ∈ (["s", "m", "h", "d"] : List String)) :
    P.parse (String.mk
      (nowToken ++ ('+' :: (ds ++ (u.data ++ ('-' :: (ds ++ u.data))))))) base
      = .ok base := by
  have husp : ∀ (k : List Char), (∀ c ∈ k, c.isWhitespace = false ∧ ¬(c = '^')) →
      True := fun _ _ => trivial
  fin_cases hu
  · have h := @parse_two_tokens base '+' '-' true false
      rfl rfl ds ds hds hdig hds hdig
      ['s'] ['s'] "s" "s"
      (by intro c hc; fin_cases hc <;> exact ⟨rfl, by decide⟩)
      (by intro c hc; fin_cases hc <;> exact ⟨rfl, by decide⟩)
      rfl rfl
      (by intro c hc; cases hc; decide)
      (by intro c hc; cases hc; decide)
    unfold P.parse
    rw [show (String.mk
        (nowToken ++ ('+' :: (ds ++ (("s" : String).data ++ ('-' :: (ds ++ ("s" : String).data))))))).data
        = nowToken ++ ('+' :: (ds ++ (['s'] ++ ('-' :: (ds ++ ['s']))))) from rfl]
    rw [h]
    simp only [if_pos, applyOffset_s]
    norm_num
  · have h := @parse_two_tokens base '+' '-' true false
      rfl rfl ds ds hds hdig hds hdig
      ['m'] ['m'] "m" "m"
      (by intro c hc; fin_cases hc <;> exact ⟨rfl, by decide⟩)
      (by intro c hc; fin_cases hc <;> exact ⟨rfl, by decide⟩)
      rfl rfl
      (by intro c hc; cases hc; decide)
      (by intro c hc; cases hc; decide)
    unfold P.parse
    rw [show (String.mk
        (nowToken ++ ('+' :: (ds ++ (("m" : String).data ++ ('-' :: (ds ++ ("m" : String).data))))))).data
        = nowToken ++ ('+' :: (ds ++ (['m'] ++ ('-' :: (ds ++ ['m']))))) from rfl]
    rw [h]
    simp only [if_pos, applyOffset_m]
    norm_num
  · have h := @parse_two_tokens base '+' '-' true false
      rfl rfl ds ds hds hdig hds hdig
      ['h'] ['h'] "h" "h"
      (by intro c hc; fin_cases hc <;> exact ⟨rfl, by decide⟩)
      (by intro c hc; fin_cases hc <;> exact ⟨rfl, by decide⟩)
      rfl rfl
      (by intro c hc; cases hc; decide)
      (by intro c hc; cases hc; decide)
    unfold P.parse
    rw [show (String.mk
        (nowToken ++ ('+' :: (ds ++ (("h" : String).data ++ ('-' :: (ds ++ ("h" : String).data))))))).data
        = nowToken ++ ('+' :: (ds ++ (['h'] ++ ('-' :: (ds ++ ['h']))))) from rfl]
    rw [h]
    simp only [if_pos, applyOffset_h]
    norm_num
  · have h := @parse_two_tokens base '+' '-' true false
      rfl rfl ds ds hds hdig hds hdig
      ['d'] ['d'] "d" "d"
      (by intro c hc; fin_cases hc <;> exact ⟨rfl, by decide⟩)
      (by intro c hc; fin_cases hc <;> exact ⟨rfl, by decide⟩)
      rfl rfl
      (by intro c hc; cases hc; decide)
      (by intro c hc; cases hc; decide)
    unfold P.parse
    rw [show (String.mk
        (nowToken ++ ('+' :: (ds ++ (("d" : String).data ++ ('-' :: (ds ++ ("d" : String).data))))))).data
        = nowToken ++ ('+' :: (ds ++ (['d'] ++ ('-' :: (ds ++ ['d']))))) from rfl]
    rw [h]
    simp only [if_pos, applyOffset_d]
    norm_num

/-- Witness for claim C6 at the concrete input now()+2d-2d. -/
theorem c6_witness :
    P.parse (String.mk
      (nowToken ++ ('+' :: (['2'] ++ (("d" : String).data
        ++ ('-' :: (['2'] ++ ("d" : String).data))))))) 12345 = .ok 12345 :=
  c6_roundtrip_additivity 12345 ['2'] "d" (by decide) (by decide) (by simp)

namespace H

/-- A heap of mutable Date objects: each JavaScript Date is a cell holding
its millisecond timestamp; new Date(...) allocates the next cell and the
setUTC mutators write a cell in place. -/
structure Heap where
  cells : Nat → Int
  next : Nat

/-- new Date(v): allocate a fresh cell holding v. -/
def alloc (h : Heap) (v : Int) : Nat × Heap :=
  (h.next, ⟨fun i => if i = h.next then v else h.cells i, h.next + 1⟩)

/-- In-place mutation of the Date object in cell r. -/
def setCell (h : Heap) (r : Nat) (v : Int) : Heap :=
  ⟨fun i => if i = r then v else h.cells i, h.next⟩

/-- applyOffsetUtc with the heap explicit: copy the argument Date into a
fresh cell, compute the shifted value, and write it into that fresh cell
only; the argument cell is never written. -/
def applyOffsetUtcH (h : Heap) (dateRef : Nat) (delta : Int) (unit : String) :
    Except ParseError Nat × Heap :=
  match alloc h (h.cells dateRef) with
  | (d, h1) =>
    match applyOffsetUtc (h1.cells d) delta unit with
    | .error e => (.error e, h1)
    | .ok v => (.ok d, setCell h1 d v)

/-- roundUtc with the heap explicit: same copy-then-mutate-the-copy shape
(the sequence of field mutations on the copy is collapsed to its final
value, which touches the same single fresh cell). -/
def roundUtcH (h : Heap) (dateRef : Nat) (unit : String) :
    Except ParseError Nat × Heap :=
  match alloc h (h.cells dateRef) with
  | (d, h1) =>
    match roundUtc (h1.cells d) unit with
    | .error e => (.error e, h1)
    | .ok v => (.ok d, setCell h1 d v)

/-- The token loop with the heap explicit: result = applyOffsetUtc(result,
delta, unit) rebinds the result reference to the fresh copy each round. -/
def applyToksH : List Tok → Heap → Nat → Except ParseError Nat × Heap
  | [], h, r => (.ok r, h)
  | t :: ts, h, r =>
    match parseIntDec t.digits with
    | none => (.error (.invalidAmount (String.mk t.digits)), h)
    | some n =>
      match applyOffsetUtcH h r (if t.sign then (n : Int) else -(n : Int)) t.unit with
      | (Except.error e, h2) => (Except.error e, h2)
      | (Except.ok r2, h2) => applyToksH ts h2 r2

/-- The offset phase with the heap explicit. -/
def applyPhaseH (tail trimmed : List Char) (h : Heap) (resRef : Nat) :
    Except ParseError Nat × Heap :=
  if 0 < tail.length then
    match scanTokens tail with
    | (toks, lastIndex) =>
      match applyToksH (toks.map Prod.fst) h resRef with
      | (Except.error e, h3) => (Except.error e, h3)
      | (Except.ok r, h3) =>
        if lastIndex = tail.length then (Except.ok r, h3)
        else (Except.error (ParseError.syntaxError (String.mk (tail.drop lastIndex))
               (indexOfChars trimmed tail + (lastIndex : Int))), h3)
  else (Except.ok resRef, h)

/-- The rounding phase with the heap explicit. -/
def roundPhaseH (roundPart : Option (List Char)) (h : Heap) (r : Nat) :
    Except ParseError Nat × Heap :=
  match roundPart with
  | none => (Except.ok r, h)
  | some rp =>
    if trimChars rp = [] then (Except.error ParseError.invalidRoundingSuffix, h)
    else roundUtcH h r (String.mk (trimChars rp))

/-- parse with the heap explicit: the caller passes options.now as a
reference; the base time is read once into a fresh copy (new
Date(options.now.getTime())), the working result starts as a further copy,
and every offset and rounding step works on fresh copies. -/
def parseH (expression : List Char) (h : Heap) (nowRef : Nat) :
    Except ParseError Nat × Heap :=
  if nowToken.isPrefixOf ((splitFields '^' (trimChars expression)).headD []) then
    match alloc h (h.cells nowRef) with
    | (baseRef, h1) =>
      match alloc h1 (h1.cells baseRef) with
      | (resRef, h2) =>
        match applyPhaseH (((splitFields '^' (trimChars expression)).headD []).drop 5)
            (trimChars expression) h2 resRef with
        | (Except.error e, h3) => (Except.error e, h3)
        | (Except.ok r, h3) =>
          roundPhaseH ((splitFields '^' (trimChars expression)).get? 1) h3 r
  else (Except.error .missingMarker, h)

/-- Heap evolution by allocation and writes to fresh cells only: every
cell that existed before keeps its value. -/
def Preserves (h h2 : Heap) : Prop :=
  h.next ≤ h2.next ∧ ∀ r, r < h.next → h2.cells r = h.cells r

theorem preserves_refl (h : Heap) : Preserves h h := ⟨Nat.le_refl _, fun _ _ => rfl⟩

theorem preserves_trans {h1 h2 h3 : Heap}
    (a : Preserves h1 h2) (b : Preserves h2 h3) : Preserves h1 h3 :=
  ⟨Nat.le_trans a.1 b.1, fun r hr => (b.2 r (Nat.lt_of_lt_of_le hr a.1)).trans (a.2 r hr)⟩

theorem alloc_preserves (h : Heap) (v : Int) : Preserves h (alloc h v).2 := by
  refine ⟨Nat.le_succ _, fun r hr => ?_⟩
  simp only [alloc]
  rw [if_neg (by omega)]

theorem applyOffsetUtcH_preserves (h : Heap) (dr : Nat) (δ : Int) (u : String) :
    Preserves h (applyOffsetUtcH h dr δ u).2 := by
  unfold applyOffsetUtcH
  cases ha : alloc h (h.cells dr) with
  | mk d h1 =>
    have hal := alloc_preserves h (h.cells dr)
    rw [ha] at hal
    have hd : d = h.next := by
      have hx : (alloc h (h.cells dr)).1 = h.next := rfl
      rw [ha] at hx
      exact hx
    have hn : h1.next = h.next + 1 := by
      have hx : (alloc h (h.cells dr)).2.next = h.next + 1 := rfl
      rw [ha] at hx
      exact hx
    dsimp only
    cases hao : applyOffsetUtc (h1.cells d) δ u with
    | error e => exact hal
    | ok v =>
      refine ⟨?_, fun r hr => ?_⟩
      · simp only [setCell]
        omega
      · simp only [setCell]
        rw [if_neg (by omega)]
        exact hal.2 r hr

theorem roundUtcH_preserves (h : Heap) (dr : Nat) (u : String) :
    Preserves h (roundUtcH h dr u).2 := by
  unfold roundUtcH
  cases ha : alloc h (h.cells dr) with
  | mk d h1 =>
    have hal := alloc_preserves h (h.cells dr)
    rw [ha] at hal
    have hd : d = h.next := by
      have hx : (alloc h (h.cells dr)).1 = h.next := rfl
      rw [ha] at hx
      exact hx
    have hn : h1.next = h.next + 1 := by
      have hx : (alloc h (h.cells dr)).2.next = h.next + 1 := rfl
      rw [ha] at hx
      exact hx
    dsimp only
    cases hro : roundUtc (h1.cells d) u with
    | error e => exact hal
    | ok v =>
      refine ⟨?_, fun r hr => ?_⟩
      · simp only [setCell]
        omega
      · simp only [setCell]
        rw [if_neg (by omega)]
        exact hal.2 r hr

theorem applyToksH_preserves :
    ∀ (ts : List Tok) (h : Heap) (r : Nat), Preserves h (applyToksH ts h r).2 := by
  intro ts
  induction ts with
  | nil => intro h r; exact preserves_refl h
  | cons t ts ih =>
    intro h r
    unfold applyToksH
    cases parseIntDec t.digits with
    | none => exact preserves_refl h
    | some n =>
      dsimp only
      cases hap : applyOffsetUtcH h r (if t.sign then (n : Int) else -(n : Int)) t.unit with
      | mk res h2 =>
        have hpre := applyOffsetUtcH_preserves h r (if t.sign then (n : Int) else -(n : Int)) t.unit
        rw [hap] at hpre
        cases res with
        | error e => exact hpre
        | ok r2 => exact preserves_trans hpre (ih h2 r2)

theorem applyPhaseH_preserves (tail trimmed : List Char) (h : Heap) (resRef : Nat) :
    Preserves h (applyPhaseH tail trimmed h resRef).2 := by
  unfold applyPhaseH
  by_cases hlen : 0 < tail.length
  · rw [if_pos hlen]
    cases hsc : scanTokens tail with
    | mk toks lastIndex =>
      dsimp only
      cases hat : applyToksH (toks.map Prod.fst) h resRef with
      | mk res h3 =>
        have hp3 := applyToksH_preserves (toks.map Prod.fst) h resRef
        rw [hat] at hp3
        cases res with
        | error e => exact hp3
        | ok r =>
          dsimp only
          by_cases hli : lastIndex = tail.length
          · rw [if_pos hli]; exact hp3
          · rw [if_neg hli]; exact hp3
  · rw [if_neg hlen]; exact preserves_refl h

theorem roundPhaseH_preserves (rp : Option (List Char)) (h : Heap) (r : Nat) :
    Preserves h (roundPhaseH rp h r).2 := by
  unfold roundPhaseH
  cases rp with
  | none => exact preserves_refl h
  | some l =>
    dsimp only
    by_cases hrt : trimChars l = []
    · rw [if_pos hrt]; exact preserves_refl h
    · rw [if_neg hrt]; exact roundUtcH_preserves h r (String.mk (trimChars l))

theorem parseH_preserves (expression : List Char) (h : Heap) (nowRef : Nat) :
    Preserves h (parseH expression h nowRef).2 := by
  unfold parseH
  by_cases hpre : nowToken.isPrefixOf ((splitFields '^' (trimChars expression)).headD [])
  · rw [if_pos hpre]
    cases ha1 : alloc h (h.cells nowRef) with
    | mk baseRef h1 =>
      have hp1 := alloc_preserves h (h.cells nowRef)
      rw [ha1] at hp1
      dsimp only
      cases ha2 : alloc h1 (h1.cells baseRef) with
      | mk resRef h2 =>
        have hp2 := alloc_preserves h1 (h1.cells baseRef)
        rw [ha2] at hp2
        have hp12 := preserves_trans hp1 hp2
        dsimp only
        cases hap : applyPhaseH (((splitFields '^' (trimChars expression)).headD []).drop 5)
            (trimChars expression) h2 resRef with
        | mk res h3 =>
          have hp3 := applyPhaseH_preserves
            (((splitFields '^' (trimChars expression)).headD []).drop 5)
            (trimChars expression) h2 resRef
          rw [hap] at hp3
          have hp13 := preserves_trans hp12 hp3
          cases res with
          | error e => exact hp13
          | ok r =>
            dsimp only
            exact preserves_trans hp13
              (roundPhaseH_preserves ((splitFields '^' (trimChars expression)).get? 1) h3 r)
  · rw [if_neg hpre]; exact preserves_refl h

end H

/-- Claim C8: the caller-supplied base Date is never mutated: for every
expression (whether parse returns a result or an error), the cell the
caller passed as options.now holds the same value after the call as
before; all offset and rounding arithmetic writes only freshly allocated
copies. -/
theorem c8_base_not_mutated (expression : String) (h : H.Heap) (nowRef r : Nat)
    (hr : r < h.next) :
    ((H.parseH expression.data h nowRef).2).cells r = h.cells r :=
  (H.parseH_preserves expression.data h nowRef).2 r hr

/-- A one-cell heap whose only Date holds timestamp 7. -/
def sampleHeap : H.Heap := ⟨fun _ => 7, 1⟩

/-- Witness for claim C8: running parse on now()+1d over the sample heap
leaves the caller's Date cell holding 7. -/
theorem c8_witness :
    ((H.parseH ("now()+1d".data) sampleHeap 0).2).cells 0 = 7 :=
  (c8_base_not_mutated "now()+1d" sampleHeap 0 0 (by decide)).trans rfl

/-- Zeroing the millisecond field truncates to the whole second. -/
theorem setms_zero (x : Int) : setUTCMilliseconds x 0 = 1000 * (x / 1000) := by
  unfold setUTCMilliseconds mkTime dayOf hourFromTime minFromTime secFromTime
  omega

/-- Zeroing seconds and milliseconds truncates to the whole minute. -/
theorem setSecMs_zero (x : Int) : setUTCSecondsMs x 0 0 = 60000 * (x / 60000) := by
  unfold setUTCSecondsMs mkTime dayOf hourFromTime minFromTime
  omega

/-- Zeroing minutes, seconds and milliseconds truncates to the whole hour. -/
theorem setMinSMs_zero (x : Int) : setUTCMinutesSMs x 0 0 0 = 3600000 * (x / 3600000) := by
  unfold setUTCMinutesSMs mkTime dayOf hourFromTime
  omega

/-- Zeroing the whole time of day truncates to midnight. -/
theorem setHoursMSMs_zero (x : Int) : setUTCHoursMSMs x 0 0 0 0 = 86400000 * (x / 86400000) := by
  unfold setUTCHoursMSMs mkTime dayOf
  omega

/-- The day number of a midnight-aligned timestamp plus a time of day. -/
theorem dayOf_mk (k tod : Int) (h0 : 0 ≤ tod) (h1 : tod < 86400000) :
    dayOf (k * 86400000 + tod) = k := by
  unfold dayOf
  omega

/-- Setting the day of month to 1 moves the timestamp to the first day of
its current month, keeping the time of day. -/
theorem setUTCDate_one (t : Int) :
    setUTCDate t 1 = (dayOf t - (getUTCDate t - 1)) * 86400000 + timeWithinDay t := by
  have h1 := makeDay_of_fields (dayOf t)
  have h2 := makeDay_date_add (yearOfDay (dayOf t)) (monthOfDay (dayOf t))
    (domOfDay (dayOf t)) (1 - domOfDay (dayOf t))
  unfold setUTCDate getUTCDate
  have h3 : domOfDay (dayOf t) + (1 - domOfDay (dayOf t)) = 1 := by ring
  rw [h3] at h2
  rw [h2, h1]
  ring_nf

/-- Claim C3 (counterexample): on base 2025-01-31T10:00Z the expression
now()^mon produces 2025-03-01T00:00Z, not the first of the following
month 2025-02-01T00:00Z that the claimed description (round up one month,
then day set to 1) yields: the in-place month bump normalizes January 31
forward into March before the day is reset. -/
theorem c3_counterexample :
    P.parse "now()^mon" (mkUTC 2025 0 31 10 0 0 0) = .ok (mkUTC 2025 2 1 0 0 0 0) ∧
    mkUTC 2025 2 1 0 0 0 0 ≠ mkUTC 2025 1 1 0 0 0 0 := by decide

/-- The year-of-era part of the rebuild is bounded like a year of era. -/
theorem mkYoe_bounds (y m : Int) : 0 ≤ mkYoe y m ∧ mkYoe y m ≤ 399 := by
  unfold mkYoe mkYAdj
  split_ifs <;> omega

/-- The March-based month of the rebuild is bounded like a month. -/
theorem mkMp_bounds (m : Int) (hm : 0 ≤ m) (hm2 : m ≤ 11) :
    0 ≤ mkMp m ∧ mkMp m ≤ 11 := by
  unfold mkMp
  split_ifs <;> omega

/-- Field extraction inverts MakeDay on a month in range and a day of
month at most 28 (such a day exists in every month, so no normalization
takes place): the civil fields of the rebuilt day number are the inputs. -/
theorem civil_of_makeDay (y m d : Int) (hm : 0 ≤ m) (hm2 : m ≤ 11)
    (hd : 1 ≤ d) (hd2 : d ≤ 28) :
    yearOfDay (makeDay y m d) = y ∧ monthOfDay (makeDay y m d) = m ∧
    domOfDay (makeDay y m d) = d := by
  have hB := mkYoe_bounds y m
  have hmp := mkMp_bounds m hm hm2
  have h12a : m / 12 = 0 := by omega
  have h12b : m % 12 = m := by omega
  have hE : eraOf (makeDay y m d) = mkYAdj y m / 400 := by
    unfold eraOf makeDay firstDayOfMonth
    rw [h12a, h12b]
    have hyoe : mkYoe (y + 0) m = mkYoe y m := by rw [add_zero]
    have hadj : mkYAdj (y + 0) m = mkYAdj y m := by rw [add_zero]
    rw [hyoe, hadj]
    omega
  have hdoe : doeOf (makeDay y m d) = 365 * mkYoe y m + mkYoe y m / 4 - mkYoe y m / 100
      + (153 * mkMp m + 2) / 5 + (d - 1) := by
    unfold doeOf makeDay firstDayOfMonth
    rw [h12a, h12b]
    have hyoe : mkYoe (y + 0) m = mkYoe y m := by rw [add_zero]
    have hadj : mkYAdj (y + 0) m = mkYAdj y m := by rw [add_zero]
    rw [hyoe, hadj]
    omega
  have hc : centuryOfDoe (doeOf (makeDay y m d)) = mkYoe y m / 100 := by
    unfold centuryOfDoe
    rw [hdoe]
    omega
  have hdoc : docOfDoe (doeOf (makeDay y m d)) = 365 * (mkYoe y m - 100 * (mkYoe y m / 100))
      + (mkYoe y m - 100 * (mkYoe y m / 100)) / 4 + (153 * mkMp m + 2) / 5 + (d - 1) := by
    unfold docOfDoe
    rw [hc, hdoe]
    omega
  have hyc : ycOfDoe (doeOf (makeDay y m d)) = mkYoe y m - 100 * (mkYoe y m / 100) := by
    unfold ycOfDoe
    rw [hdoc]
    omega
  have hdoy : doyOf (makeDay y m d) = (153 * mkMp m + 2) / 5 + (d - 1) := by
    unfold doyOf
    rw [hyc, hdoc]
    omega
  have hmpX : mpOf (makeDay y m d) = mkMp m := by
    unfold mpOf
    rw [hdoy]
    have hq1 : 0 ≤ mkMp m := hmp.1
    have hq2 : mkMp m ≤ 11 := hmp.2
    interval_cases h : mkMp m <;> omega
  have hdomX : domOfDay (makeDay y m d) = d := by
    unfold domOfDay
    rw [hmpX, hdoy]
    omega
  have hmonX : monthOfDay (makeDay y m d) = m := by
    unfold monthOfDay
    rw [hmpX]
    unfold mkMp
    split_ifs <;> omega
  refine ⟨?_, hmonX, hdomX⟩
  unfold yearOfDay yoeOf
  rw [hc, hyc, hE, hmonX]
  unfold mkYoe mkYAdj
  split_ifs <;> omega

/-- Year recovery for a rebuild with a late month (June onward): any day
of month up to 31 stays inside the same calendar year, even when it
normalizes into the next month. -/
theorem year_of_makeDay_late (y m d : Int) (hm : 6 ≤ m) (hm2 : m ≤ 11)
    (hd : 1 ≤ d) (hd2 : d ≤ 31) : yearOfDay (makeDay y m d) = y := by
  have h12a : m / 12 = 0 := by omega
  have h12b : m % 12 = m := by omega
  have hmpv : mkMp m = m - 2 := by unfold mkMp; rw [if_neg (by omega)]
  have hyav : mkYAdj y m = y := by unfold mkYAdj; rw [if_neg (by omega)]; ring
  have hyoev : mkYoe y m = y - 400 * (y / 400) := by
    unfold mkYoe
    rw [hyav]
  have hE : eraOf (makeDay y m d) = y / 400 := by
    unfold eraOf makeDay firstDayOfMonth
    rw [h12a, h12b]
    have hyoe : mkYoe (y + 0) m = mkYoe y m := by rw [add_zero]
    have hadj : mkYAdj (y + 0) m = mkYAdj y m := by rw [add_zero]
    rw [hyoe, hadj, hyoev, hyav, hmpv]
    omega
  have hdoe : doeOf (makeDay y m d) = 365 * (y - 400 * (y / 400))
      + (y - 400 * (y / 400)) / 4 - (y - 400 * (y / 400)) / 100
      + (153 * (m - 2) + 2) / 5 + (d - 1) := by
    unfold doeOf makeDay firstDayOfMonth
    rw [h12a, h12b]
    have hyoe : mkYoe (y + 0) m = mkYoe y m := by rw [add_zero]
    have hadj : mkYAdj (y + 0) m = mkYAdj y m := by rw [add_zero]
    rw [hyoe, hadj, hyoev, hyav, hmpv]
    omega
  have hc : centuryOfDoe (doeOf (makeDay y m d)) = (y - 400 * (y / 400)) / 100 := by
    unfold centuryOfDoe
    rw [hdoe]
    omega
  have hdoc : docOfDoe (doeOf (makeDay y m d))
      = 365 * (y - 400 * (y / 400) - 100 * ((y - 400 * (y / 400)) / 100))
      + (y - 400 * (y / 400) - 100 * ((y - 400 * (y / 400)) / 100)) / 4
      + (153 * (m - 2) + 2) / 5 + (d - 1) := by
    unfold docOfDoe
    rw [hc, hdoe]
    omega
  have hyc : ycOfDoe (doeOf (makeDay y m d))
      = y - 400 * (y / 400) - 100 * ((y - 400 * (y / 400)) / 100) := by
    unfold ycOfDoe
    rw [hdoc]
    omega
  have hdoy : doyOf (makeDay y m d) = (153 * (m - 2) + 2) / 5 + (d - 1) := by
    unfold doyOf
    rw [hyc, hdoc]
    omega
  have hmpX : 2 ≤ mpOf (makeDay y m d) ∧ mpOf (makeDay y m d) ≤ 9 := by
    unfold mpOf
    rw [hdoy]
    omega
  have hmonX : 1 < monthOfDay (makeDay y m d) := by
    unfold monthOfDay
    rw [if_pos (by omega)]
    omega
  unfold yearOfDay yoeOf
  rw [hc, hyc, hE]
  rw [if_neg (by omega)]
  omega

/-- Time of day is always a legal offset into the day. -/
theorem twd_bounds (t : Int) :
    0 ≤ timeWithinDay t ∧ timeWithinDay t < 86400000 := by
  unfold timeWithinDay
  omega

/-- Rounding to the second is integer half-up division by 1000. -/
theorem round_s_eq (t : Int) :
    roundUtc t "s" = .ok (1000 * ((t + 500) / 1000)) := by
  have h0 : roundUtc t "s" = .ok (setUTCMilliseconds
      (if 500 ≤ msFromTime t then setUTCSeconds t (secFromTime t + 1) else t) 0) := rfl
  rw [h0]
  split_ifs with hc
  · rw [setUTCSeconds_shift, setms_zero]
    simp only [Except.ok.injEq]
    unfold msFromTime at hc
    omega
  · rw [setms_zero]
    simp only [Except.ok.injEq]
    unfold msFromTime at hc
    omega

/-- Rounding to the minute is integer half-up division by 60000. -/
theorem round_m_eq (t : Int) :
    roundUtc t "m" = .ok (60000 * ((t + 30000) / 60000)) := by
  have h0 : roundUtc t "m" = .ok (setUTCSecondsMs
      (if 30 ≤ secFromTime t then setUTCMinutes t (minFromTime t + 1) else t) 0 0) := rfl
  rw [h0]
  split_ifs with hc
  · rw [setUTCMinutes_shift, setSecMs_zero]
    simp only [Except.ok.injEq]
    unfold secFromTime at hc
    omega
  · rw [setSecMs_zero]
    simp only [Except.ok.injEq]
    unfold secFromTime at hc
    omega

/-- Rounding to the hour is integer half-up division by 3600000. -/
theorem round_h_eq (t : Int) :
    roundUtc t "h" = .ok (3600000 * ((t + 1800000) / 3600000)) := by
  have h0 : roundUtc t "h" = .ok (setUTCMinutesSMs
      (if 30 ≤ minFromTime t then setUTCHours t (hourFromTime t + 1) else t) 0 0 0) := rfl
  rw [h0]
  split_ifs with hc
  · rw [setUTCHours_shift, setMinSMs_zero]
    simp only [Except.ok.injEq]
    unfold minFromTime at hc
    omega
  · rw [setMinSMs_zero]
    simp only [Except.ok.injEq]
    unfold minFromTime at hc
    omega

/-- Rounding to the day is integer half-up division by 86400000. -/
theorem round_d_eq (t : Int) :
    roundUtc t "d" = .ok (86400000 * ((t + 43200000) / 86400000)) := by
  have h0 : roundUtc t "d" = .ok (setUTCHoursMSMs
      (if 12 ≤ hourFromTime t then setUTCDate t (getUTCDate t + 1) else t) 0 0 0 0) := rfl
  rw [h0]
  split_ifs with hc
  · rw [setUTCDate_shift, setHoursMSMs_zero]
    simp only [Except.ok.injEq]
    unfold hourFromTime at hc
    omega
  · rw [setHoursMSMs_zero]
    simp only [Except.ok.injEq]
    unfold hourFromTime at hc
    omega

/-- Rounding to the month when the day of month is at most 15 truncates
to the first of the current month at midnight. -/
theorem round_mon_low (t : Int) (hd : getUTCDate t ≤ 15) :
    roundUtc t "mon" = .ok (86400000 * (dayOf t - (getUTCDate t - 1))) := by
  have h0 : roundUtc t "mon" = .ok (setUTCHoursMSMs (setUTCDate
      (if 15 < getUTCDate t then setUTCMonth t (getUTCMonth t + 1) else t) 1) 0 0 0 0) := rfl
  rw [h0, if_neg (by omega), setUTCDate_one, setHoursMSMs_zero]
  simp only [Except.ok.injEq]
  unfold timeWithinDay
  omega

/-- Month 12 of a year is month 0 of the next year under MakeDay
normalization. -/
theorem makeDay_twelve (y d : Int) : makeDay y 12 d = makeDay (y + 1) 0 d := by
  unfold makeDay
  norm_num

/-- Rounding to the month when the day of month lies in 16..28: the month
bump keeps such a day inside the next month (every month has at least 28
days), so the result is the first of the next month at midnight. -/
theorem round_mon_high (t : Int) (hd1 : 15 < getUTCDate t) (hd2 : getUTCDate t ≤ 28) :
    roundUtc t "mon" = .ok (86400000 * makeDay (getUTCFullYear t) (getUTCMonth t + 1) 1) := by
  have hb := civil_bounds (dayOf t)
  unfold getUTCDate at hd1 hd2
  unfold getUTCFullYear getUTCMonth
  have h0 : roundUtc t "mon" = .ok (setUTCHoursMSMs (setUTCDate
      (if 15 < getUTCDate t then setUTCMonth t (getUTCMonth t + 1) else t) 1) 0 0 0 0) := rfl
  rw [h0, if_pos (by unfold getUTCDate; omega)]
  have hd0 : dayOf (setUTCMonth t (getUTCMonth t + 1))
      = makeDay (yearOfDay (dayOf t)) (monthOfDay (dayOf t) + 1) (domOfDay (dayOf t)) := by
    unfold setUTCMonth getUTCMonth
    exact dayOf_mk _ _ (twd_bounds t).1 (twd_bounds t).2
  by_cases hm : monthOfDay (dayOf t) ≤ 10
  · have hciv := civil_of_makeDay (yearOfDay (dayOf t)) (monthOfDay (dayOf t) + 1)
      (domOfDay (dayOf t)) (by omega) (by omega) (by omega) hd2
    unfold setUTCDate
    rw [hd0, hciv.1, hciv.2.1, setHoursMSMs_zero]
    simp only [Except.ok.injEq]
    have htw := twd_bounds (setUTCMonth t (getUTCMonth t + 1))
    omega
  · have hm11 : monthOfDay (dayOf t) = 11 := by omega
    have key : makeDay (yearOfDay (dayOf t)) (monthOfDay (dayOf t) + 1) (domOfDay (dayOf t))
        = makeDay (yearOfDay (dayOf t) + 1) 0 (domOfDay (dayOf t)) := by
      rw [hm11]
      norm_num [makeDay_twelve]
    have key2 : makeDay (yearOfDay (dayOf t)) (monthOfDay (dayOf t) + 1) 1
        = makeDay (yearOfDay (dayOf t) + 1) 0 1 := by
      rw [hm11]
      norm_num [makeDay_twelve]
    have hciv := civil_of_makeDay (yearOfDay (dayOf t) + 1) 0
      (domOfDay (dayOf t)) (by omega) (by omega) (by omega) hd2
    unfold setUTCDate
    rw [hd0, key, hciv.1, hciv.2.1, key2, setHoursMSMs_zero]
    simp only [Except.ok.injEq]
    have htw := twd_bounds (setUTCMonth t (getUTCMonth t + 1))
    omega

/-- Rounding to the year before June truncates to January 1 of the
current year at midnight. -/
theorem round_y_low (t : Int) (hm : getUTCMonth t < 6) :
    roundUtc t "y" = .ok (86400000 * makeDay (getUTCFullYear t) 0 1) := by
  have h0 : roundUtc t "y" = .ok (setUTCHoursMSMs (setUTCMonthDate
      (if 6 ≤ getUTCMonth t then setUTCFullYear t (getUTCFullYear t + 1) else t) 0 1) 0 0 0 0) := rfl
  rw [h0, if_neg (by omega)]
  unfold setUTCMonthDate getUTCFullYear
  rw [setHoursMSMs_zero]
  simp only [Except.ok.injEq]
  have htw := twd_bounds t
  omega

/-- Rounding to the year from June onward rolls forward to January 1 of
the next year at midnight; the year bump keeps the instant inside the
next calendar year even when its day of month normalizes forward. -/
theorem round_y_high (t : Int) (hm : 6 ≤ getUTCMonth t) :
    roundUtc t "y" = .ok (86400000 * makeDay (getUTCFullYear t + 1) 0 1) := by
  have hb := civil_bounds (dayOf t)
  unfold getUTCMonth at hm
  unfold getUTCFullYear
  have h0 : roundUtc t "y" = .ok (setUTCHoursMSMs (setUTCMonthDate
      (if 6 ≤ getUTCMonth t then setUTCFullYear t (getUTCFullYear t + 1) else t) 0 1) 0 0 0 0) := rfl
  rw [h0, if_pos (by unfold getUTCMonth; omega)]
  have hd0 : dayOf (setUTCFullYear t (getUTCFullYear t + 1))
      = makeDay (yearOfDay (dayOf t) + 1) (monthOfDay (dayOf t)) (domOfDay (dayOf t)) := by
    unfold setUTCFullYear getUTCFullYear
    exact dayOf_mk _ _ (twd_bounds t).1 (twd_bounds t).2
  have hy := year_of_makeDay_late (yearOfDay (dayOf t) + 1) (monthOfDay (dayOf t))
    (domOfDay (dayOf t)) hm (by omega) (by omega) (by omega)
  unfold setUTCMonthDate
  rw [hd0, hy, setHoursMSMs_zero]
  simp only [Except.ok.injEq]
  have htw := twd_bounds (setUTCFullYear t (getUTCFullYear t + 1))
  omega

/-- Claim C3 (amended): after the offsets are applied the result is
rounded per unit with all finer fields zeroed. For second, minute, hour
and day the rule is the claimed half-up tie-break (equivalently, half-up
integer division of the timestamp by the unit length). For year, months
before June truncate to January 1 of the current year and June onward
rolls to January 1 of the next year, cascading December into the next
year as claimed. For month, a day of month of at most 15 truncates to the
first of the current month; a day of month in 16..28 rounds up to the
first of the next month (cascading December into January of the next
year); but for a day of month of 29..31 the code first bumps the month in
place, which can normalize forward past the next month, so the claimed
rule (up one month, then day set to 1) does not hold there. The last
clause ties rounding to parse: now()+1d^mon rounds the offset result. -/
theorem c3_round_half_up :
    (∀ t : Int, roundUtc t "s" = .ok (1000 * ((t + 500) / 1000))) ∧
    (∀ t : Int, roundUtc t "m" = .ok (60000 * ((t + 30000) / 60000))) ∧
    (∀ t : Int, roundUtc t "h" = .ok (3600000 * ((t + 1800000) / 3600000))) ∧
    (∀ t : Int, roundUtc t "d" = .ok (86400000 * ((t + 43200000) / 86400000))) ∧
    (∀ t : Int, getUTCDate t ≤ 15 →
      roundUtc t "mon" = .ok (86400000 * (dayOf t - (getUTCDate t - 1)))) ∧
    (∀ t : Int, 15 < getUTCDate t → getUTCDate t ≤ 28 →
      roundUtc t "mon" = .ok (86400000 * makeDay (getUTCFullYear t) (getUTCMonth t + 1) 1)) ∧
    (∀ t : Int, getUTCMonth t < 6 →
      roundUtc t "y" = .ok (86400000 * makeDay (getUTCFullYear t) 0 1)) ∧
    (∀ t : Int, 6 ≤ getUTCMonth t →
      roundUtc t "y" = .ok (86400000 * makeDay (getUTCFullYear t + 1) 0 1)) ∧
    (∀ base : Int, P.parse "now()+1d^mon" base = roundUtc (base + 86400000) "mon") := by
  refine ⟨round_s_eq, round_m_eq, round_h_eq, round_d_eq, round_mon_low,
    round_mon_high, round_y_low, round_y_high, ?_⟩
  intro base
  have h : P.parse "now()+1d^mon" base
      = roundUtc (setUTCDate base (getUTCDate base + 1)) "mon" := rfl
  rw [h, setUTCDate_shift]
  norm_num

/-- Witness for C3: the month rule applied at 2025-01-20T10:30Z, whose
day of month 20 satisfies both hypotheses, rounds up to 2025-02-01. -/
theorem c3_round_half_up_witness :
    15 < getUTCDate (mkUTC 2025 0 20 10 30 0 0) ∧
    getUTCDate (mkUTC 2025 0 20 10 30 0 0) ≤ 28 ∧
    roundUtc (mkUTC 2025 0 20 10 30 0 0) "mon"
      = .ok (86400000 * makeDay (getUTCFullYear (mkUTC 2025 0 20 10 30 0 0))
          (getUTCMonth (mkUTC 2025 0 20 10 30 0 0) + 1) 1) :=
  ⟨by decide, by decide,
    c3_round_half_up.2.2.2.2.2.1 (mkUTC 2025 0 20 10 30 0 0) (by decide) (by decide)⟩

/-- Claim C4 (counterexample): the text after the first delimiter of
now()+1d^mon^d is mon^d, which names no valid unit, yet parse succeeds
(offset one day from 2025-01-08T09:00Z, then month rounding to
2025-01-01T00:00Z): the two-field split limit silently discards the
second delimiter and everything after it instead of failing. -/
theorem c4_counterexample :
    P.parse "now()+1d^mon^d" (mkUTC 2025 0 8 9 0 0 0) = .ok (mkUTC 2025 0 1 0 0 0 0) ∧
    (∀ u ∈ ["s", "m", "h", "d", "mon", "y"], u ≠ "mon^d") := by
  decide

/-- One splitting step of the field splitter at the first delimiter. -/
theorem splitFields_cons (c : Char) (cs : List Char) :
    splitFields '^' (c :: cs) = if c = '^' then [] :: splitFields '^' cs
      else ((c :: (splitFields '^' cs).headD []) :: (splitFields '^' cs).tail) := rfl

/-- Claim C4 (amended): the expression is split at the delimiter with a
field limit of two, so the rounding part is the text between the first
and the second occurrence of the delimiter, and a second occurrence and
everything after it are silently discarded rather than validated. An
empty rounding part fails with the malformed-suffix error and an unknown
unit fails with the unsupported-rounding-unit error, as claimed; but
now()^mon^d is accepted with month rounding. The last clause gives the
split rule: the field before the first delimiter is the core. -/
theorem c4_rounding_suffix :
    (∀ base : Int, P.parse "now()^" base = .error .invalidRoundingSuffix) ∧
    (∀ base : Int, P.parse "now()^x" base = .error (.unsupportedRoundingUnit "x")) ∧
    (∀ base : Int, P.parse "now()^mon^d" base = roundUtc base "mon") ∧
    (∀ core rest : List Char, '^' ∉ core →
      splitFields '^' (core ++ '^' :: rest) = core :: splitFields '^' rest) := by
  refine ⟨fun base => rfl, fun base => rfl, fun base => rfl, ?_⟩
  intro core rest h
  induction core with
  | nil =>
    rw [List.nil_append, splitFields_cons, if_pos rfl]
  | cons c cs ih =>
    have h1 : c ≠ '^' := fun hh => h (hh ▸ List.mem_cons_self c cs)
    have h2 : '^' ∉ cs := fun hh => h (List.mem_cons_of_mem c hh)
    rw [List.cons_append, splitFields_cons, if_neg h1, ih h2]
    rfl

/-- Witness for C4: the split rule applied to the concrete caret-free
field mon before the delimiter, with d after it. -/
theorem c4_rounding_suffix_witness :
    '^' ∉ ['m', 'o', 'n'] ∧
    splitFields '^' (['m', 'o', 'n'] ++ '^' :: ['d'])
      = ['m', 'o', 'n'] :: splitFields '^' ['d'] :=
  ⟨by decide, c4_rounding_suffix.2.2.2 ['m', 'o', 'n'] ['d'] (by decide)⟩
